import Mathlib

/-!
# Verification of the trading-btc backtest core

A shallow embedding of the backtest simulation loop
(`src/backtesting/backtest_engine.py`, `BacktestEngine.run_backtest`) and of
the performance analyzer (`src/backtesting/performance.py`,
`PerformanceAnalyzer`), together with theorems settling the specification's
claims about them.

Modelling conventions:
* Python floats are modelled by exact rationals `ℚ` in the engine.  The
  engine's arithmetic (`min`, `+`, `-`, `*`, `/`) is translated verbatim.
* In the analyzer, pandas float columns are modelled as `List (Option F)`
  over a linear ordered field `F`: `none` stands for NaN (pandas skips NaN
  in reductions such as `mean`, `std`, `max`, `min`, `cumprod`, which the
  embedding reproduces).  Infinities never arise on the inputs the claims
  are about (positive equity series), so a division by zero is mapped to
  `none` as well.
* `np.sqrt` is kept as an explicit function parameter so the development
  stays executable; the implementation instantiates it with the real square
  root, and the theorems assume only the facts of it they need
  (e.g. `sqrt 0 = 0`).
-/

/-- Portfolio ledger state carried through the loop of `run_backtest`
(`backtest_engine.py` lines 82-85): quote-currency `cash`, base-asset
`position`, and the engine's own `trade_count`. -/
structure Ledger where
  cash : ℚ
  position : ℚ
  tradeCount : ℕ
deriving DecidableEq, Repr

/-- One row written back to the results frame by `run_backtest`
(`backtest_engine.py` lines 124-127), plus the row's `signal` column which
the strategy attached and the frame keeps. -/
structure StepRecord where
  position : ℚ
  cash : ℚ
  holdings : ℚ
  total : ℚ
  signal : ℤ
deriving DecidableEq, Repr

/-- The signal branch of the per-candle loop (`backtest_engine.py` lines
97-116): a BUY (`signal == 1`) executes only with `cash > 0`, buys
`min(trade_amount, cash / price)` and pays `qty * price * (1 + commission)`
only if that cost fits in `cash` (silent skip otherwise); a SELL
(`signal == -1`) executes only with `position > 0`, sells
`min(position, trade_amount)` and credits `qty * price * (1 - commission)`.
Every other signal value leaves the ledger unchanged. -/
def applySignal (trade_amount commission : ℚ) (st : Ledger) (signal : ℤ)
    (price : ℚ) : Ledger :=
  if signal = 1 ∧ 0 < st.cash then
    let buy_qty := min trade_amount (st.cash / price)
    let cost := buy_qty * price * (1 + commission)
    if cost ≤ st.cash then
      { cash := st.cash - cost, position := st.position + buy_qty,
        tradeCount := st.tradeCount + 1 }
    else st
  else if signal = -1 ∧ 0 < st.position then
    let sell_qty := min st.position trade_amount
    let proceeds := sell_qty * price * (1 - commission)
    { cash := st.cash + proceeds, position := st.position - sell_qty,
      tradeCount := st.tradeCount + 1 }
  else st

/-- The per-candle loop of `run_backtest` (`backtest_engine.py` lines
93-127) over the list of `(signal, close)` pairs of the filtered frame:
apply the signal, then revalue (`holdings = position * close`,
`total = cash + holdings`) and record the row.  Returns the final ledger
together with the recorded trace. -/
def runLoop (trade_amount commission : ℚ) (st : Ledger) :
    List (ℤ × ℚ) → Ledger × List StepRecord
  | [] => (st, [])
  | (sig, price) :: rest =>
    let st' := applySignal trade_amount commission st sig price
    let record : StepRecord :=
      { position := st'.position, cash := st'.cash,
        holdings := st'.position * price,
        total := st'.cash + st'.position * price, signal := sig }
    let tail := runLoop trade_amount commission st' rest
    (tail.1, record :: tail.2)

/-- The trace produced by a fresh run (`backtest_engine.py` lines 82-85
initialise `cash = initial_capital`, `position = 0`, `trade_count = 0`). -/
def runTrace (trade_amount commission initial_capital : ℚ)
    (pairs : List (ℤ × ℚ)) : List StepRecord :=
  (runLoop trade_amount commission
    { cash := initial_capital, position := 0, tradeCount := 0 } pairs).2

/-- The final ledger of a fresh run. -/
def runFinal (trade_amount commission initial_capital : ℚ)
    (pairs : List (ℤ × ℚ)) : Ledger :=
  (runLoop trade_amount commission
    { cash := initial_capital, position := 0, tradeCount := 0 } pairs).1

/-- The analyzer's trade count (`performance.py` lines 117-119): the number
of rows of the result frame whose `signal` has `abs(signal) > 0`. -/
def tradeCountFromTrace (records : List StepRecord) : ℕ :=
  (records.filter fun r => 0 < |r.signal|).length

theorem runLoop_length (trade_amount commission : ℚ) (st : Ledger)
    (pairs : List (ℤ × ℚ)) :
    (runLoop trade_amount commission st pairs).2.length = pairs.length := by
  induction pairs generalizing st with
  | nil => rfl
  | cons hd tl ih =>
    obtain ⟨sig, price⟩ := hd
    simp [runLoop, ih]

/-- Immutable run configuration (`config['backtest']` plus the strategy's
`trade_amount` parameter), read in `backtest_engine.py` lines 37-42, 77, 84.
Timestamps are modelled as integers (the candle index is strictly
increasing, and only order comparisons are performed on it). -/
structure RunConfig where
  start_date : ℤ
  end_date : ℤ
  initial_capital : ℚ
  commission : ℚ
  trade_amount : ℚ
deriving DecidableEq, Repr

/-- The whole input of one `run_backtest` invocation.  `candles` is the
data frame, one `(timestamp, close)` per row.  `signalOf` models the
pluggable Signal Source: the strategy attaches one signal value per row of
the filtered frame.  The three booleans model the schema facts the engine
checks before the loop: presence of the `backtest`/`strategy` config
sections (lines 26-29) and of the required OHLC columns (lines 60-63);
`strategyAddsSignal` is the line 72 check that the strategy produced a
`signal` column. -/
structure BacktestInput where
  hasBacktestSection : Bool
  hasStrategySection : Bool
  config : RunConfig
  candles : List (ℤ × ℚ)
  hasRequiredColumns : Bool
  strategyAddsSignal : Bool
  signalOf : ℤ → ℤ

/-- A returned results frame, reduced to what the claims inspect: its
column list and its rows. -/
structure BTResult where
  columns : List String
  records : List StepRecord
deriving DecidableEq

/-- Column shape of a legitimate zero-row Trace (`backtest_engine.py`
lines 53-55). -/
def traceColumns : List String :=
  ["position", "cash", "holdings", "total", "signal"]

/-- The degenerate frame built by the `except` handler of `run_backtest`
(`backtest_engine.py` lines 133-137): a zero-row frame whose only column
is `total`. -/
def errorResult : BTResult :=
  { columns := ["total"], records := [] }

/-- `BacktestEngine.run_backtest` (`backtest_engine.py` lines 20-137).
Every uncaught exception — a missing config section (line 29, `KeyError`),
`validate_dates` rejecting `start_date >= end_date`
(`utils/date_utils.py` line 4, `ValueError`), missing OHLC columns
(line 63) or a missing `signal` column (line 73) — lands in the single
`except` handler of lines 133-137 and yields `errorResult`.  An empty
filtered frame returns the zero-row five-column frame of lines 50-57
before any of the later checks run.  Otherwise the per-candle loop runs
on the filtered rows with the strategy's signals attached. -/
def run_backtest (inp : BacktestInput) : BTResult :=
  if ¬ (inp.hasBacktestSection ∧ inp.hasStrategySection) then errorResult
  else if inp.config.end_date ≤ inp.config.start_date then errorResult
  else
    let filtered := inp.candles.filter fun c =>
      inp.config.start_date ≤ c.1 ∧ c.1 ≤ inp.config.end_date
    if filtered.isEmpty then { columns := traceColumns, records := [] }
    else if ¬ inp.hasRequiredColumns then errorResult
    else if ¬ inp.strategyAddsSignal then errorResult
    else
      { columns := traceColumns,
        records := runTrace inp.config.trade_amount inp.config.commission
          inp.config.initial_capital
          (filtered.map fun c => (inp.signalOf c.1, c.2)) }

section Analyzer

variable {F : Type} [LinearOrderedField F]

/-- Elementwise float multiplication with NaN propagation
(`none` models NaN). -/
def omul : Option F → Option F → Option F
  | some a, some b => some (a * b)
  | _, _ => none

/-- Elementwise float division with NaN propagation; a zero denominator is
mapped to `none` (it never occurs on the positive-equity inputs the claims
quantify over). -/
def odiv : Option F → Option F → Option F
  | some a, some b => if b = 0 then none else some (a / b)
  | _, _ => none

/-- `Series.pct_change` on a plain numeric column: the first entry is NaN,
entry `i` is `x[i] / x[i-1] - 1`. -/
def pctAux (prev : F) : List F → List (Option F)
  | [] => []
  | y :: rest =>
    (if prev = 0 then none else some (y / prev - 1)) :: pctAux y rest

/-- `Series.pct_change` over the whole column. -/
def pctChange : List F → List (Option F)
  | [] => []
  | x :: rest => none :: pctAux x rest

/-- `PerformanceAnalyzer.calculate_returns` (`performance.py` lines 36-52):
an empty series when the frame is empty, otherwise
`data['total'].pct_change()`. -/
def calculate_returns (total : List F) : List (Option F) :=
  if total.isEmpty then [] else pctChange total

/-- `Series.mean()` with pandas NaN skipping: the mean of the non-NaN
entries, NaN when there are none. -/
def seriesMean (xs : List (Option F)) : Option F :=
  let v := xs.filterMap id
  if v.isEmpty then none else some (v.sum / (v.length : F))

/-- `Series.std()` with pandas NaN skipping and `ddof = 1`: the square root
of the sample variance of the non-NaN entries, NaN when fewer than two
remain. -/
def seriesStd (sqrt : F → F) (xs : List (Option F)) : Option F :=
  let v := xs.filterMap id
  if v.length ≤ 1 then none
  else
    let m := v.sum / (v.length : F)
    some (sqrt ((v.map fun x => (x - m) ^ 2).sum / ((v.length : F) - 1)))

/-- `PerformanceAnalyzer.calculate_sharpe_ratio` (`performance.py` lines
54-69): `0` for an empty return series, `0` when the excess-return standard
deviation equals `0`, otherwise
`sqrt(365) * excess.mean() / excess.std()`. -/
def calculate_sharpe_ratio (sqrt : F → F) (returns : List (Option F))
    (risk_free_rate : F) : Option F :=
  if returns.isEmpty then some 0
  else
    let excess := returns.map (Option.map fun r => r - risk_free_rate / 365)
    if seriesStd sqrt excess = some 0 then some 0
    else odiv (omul (some (sqrt 365)) (seriesMean excess))
      (seriesStd sqrt excess)

/-- `Series.cumprod()` with pandas NaN skipping: NaN entries stay NaN in
the output and do not update the running product. -/
def cumprodAux (acc : F) : List (Option F) → List (Option F)
  | [] => []
  | none :: rest => none :: cumprodAux acc rest
  | some x :: rest => some (acc * x) :: cumprodAux (acc * x) rest

/-- `Series.expanding(min_periods=1).max()` with pandas NaN skipping: entry
`i` is the max of the non-NaN entries among the first `i + 1`, NaN while
there are none yet. -/
def runningMaxAux (best : Option F) : List (Option F) → List (Option F)
  | [] => []
  | none :: rest => best :: runningMaxAux best rest
  | some x :: rest =>
    let b := match best with
      | none => x
      | some b0 => max b0 x
    some b :: runningMaxAux (some b) rest

/-- `Series.min()` with pandas NaN skipping: the minimum of the non-NaN
entries, NaN when there are none. -/
def seriesMin : List (Option F) → Option F
  | [] => none
  | none :: rest => seriesMin rest
  | some x :: rest =>
    match seriesMin rest with
    | none => some x
    | some y => some (min x y)

/-- `PerformanceAnalyzer.calculate_max_drawdown` (`performance.py` lines
71-84): `0` for an empty return series, otherwise the minimum of
`cumprod(1 + returns) / expanding_max(cumprod(1 + returns)) - 1`. -/
def calculate_max_drawdown (returns : List (Option F)) : Option F :=
  if returns.isEmpty then some 0
  else
    let cumulative := cumprodAux 1 (returns.map (Option.map fun r => 1 + r))
    let peak := runningMaxAux none cumulative
    seriesMin ((List.zipWith odiv cumulative peak).map
      (Option.map fun x => x - 1))

end Analyzer
/-! ## Ledger lemmas -/

theorem applySignal_of_signal_zero (trade_amount commission : ℚ) (st : Ledger)
    (price : ℚ) : applySignal trade_amount commission st 0 price = st := by
  simp [applySignal]

theorem applySignal_tradeCount_le (trade_amount commission : ℚ) (st : Ledger)
    (sig : ℤ) (price : ℚ) :
    (applySignal trade_amount commission st sig price).tradeCount ≤
      st.tradeCount + 1 := by
  simp only [applySignal]
  split
  · split
    · exact Nat.le_refl _
    · exact Nat.le_succ _
  · split
    · exact Nat.le_refl _
    · exact Nat.le_succ _

theorem applySignal_nonneg (trade_amount commission : ℚ) (st : Ledger)
    (sig : ℤ) (price : ℚ) (hta : 0 < trade_amount) (hc1 : commission < 1)
    (hp : 0 < price) (hcash : 0 ≤ st.cash) (hpos : 0 ≤ st.position) :
    0 ≤ (applySignal trade_amount commission st sig price).cash ∧
      0 ≤ (applySignal trade_amount commission st sig price).position := by
  simp only [applySignal]
  split_ifs with h1 h2 h3
  · refine ⟨by simpa using h2, add_nonneg hpos ?_⟩
    exact le_min hta.le (div_nonneg hcash hp.le)
  · exact ⟨hcash, hpos⟩
  · constructor
    · refine add_nonneg hcash (mul_nonneg (mul_nonneg ?_ hp.le) (by linarith))
      exact le_min h3.2.le hta.le
    · simp only [Ledger.position]
      exact sub_nonneg.2 (min_le_left st.position trade_amount)
  · exact ⟨hcash, hpos⟩

theorem runLoop_nonneg (trade_amount commission : ℚ)
    (hta : 0 < trade_amount) (hc1 : commission < 1) (st : Ledger)
    (pairs : List (ℤ × ℚ)) (hprices : ∀ pr ∈ pairs, 0 < pr.2)
    (hcash : 0 ≤ st.cash) (hpos : 0 ≤ st.position) :
    ∀ r ∈ (runLoop trade_amount commission st pairs).2,
      0 ≤ r.cash ∧ 0 ≤ r.position := by
  induction pairs generalizing st with
  | nil => intro r hr; simp [runLoop] at hr
  | cons hd tl ih =>
    obtain ⟨sig, price⟩ := hd
    intro r hr
    have hp : 0 < price := hprices (sig, price) (List.mem_cons_self _ _)
    have hst' := applySignal_nonneg trade_amount commission st sig price
      hta hc1 hp hcash hpos
    simp only [runLoop, List.mem_cons] at hr
    rcases hr with h | h
    · subst h; exact hst'
    · exact ih _ (fun pr hpr => hprices pr (List.mem_cons_of_mem _ hpr))
        hst'.1 hst'.2 r h

theorem tradeCountFromTrace_cons (r : StepRecord) (rest : List StepRecord) :
    tradeCountFromTrace (r :: rest) =
      (if 0 < |r.signal| then 1 else 0) + tradeCountFromTrace rest := by
  by_cases h : r.signal = 0
  · simp [tradeCountFromTrace, List.filter_cons, h]
  · simp [tradeCountFromTrace, List.filter_cons, h, abs_pos.2 h, Nat.add_comm]

/-! ## Claim theorems: the ledger and the driver loop -/

/-- C1.  Conservation: every recorded row of a run trace satisfies
`total = cash + holdings`, and its `holdings` equals the recorded
`position` times that row's close price, whatever the candle/signal series
and the configuration (`backtest_engine.py` lines 118-127 compute the row
exactly this way). -/
theorem run_backtest_conservation (trade_amount commission initial_capital : ℚ)
    (pairs : List (ℤ × ℚ)) (p : (ℤ × ℚ) × StepRecord)
    (hp : p ∈ List.zip pairs
      (runTrace trade_amount commission initial_capital pairs)) :
    p.2.total = p.2.cash + p.2.holdings ∧
      p.2.holdings = p.2.position * p.1.2 := by
  rw [runTrace] at hp
  generalize Ledger.mk initial_capital 0 0 = st at hp
  induction pairs generalizing st with
  | nil => simp [runLoop] at hp
  | cons hd tl ih =>
    obtain ⟨sig, price⟩ := hd
    simp only [runLoop, List.zip_cons_cons, List.mem_cons] at hp
    rcases hp with h | h
    · subst h; exact ⟨rfl, rfl⟩
    · exact ih _ h

/-- C1 witness: conservation on the recorded row of a one-candle HOLD
run. -/
theorem run_backtest_conservation_witness :
    let p : (ℤ × ℚ) × StepRecord := ((0, 100), ⟨0, 10000, 0, 10000, 0⟩)
    p.2.total = p.2.cash + p.2.holdings ∧ p.2.holdings = p.2.position * p.1.2 :=
  run_backtest_conservation (1/100) (1/1000) 10000 [(0, 100)] _
    (by norm_num [runTrace, runLoop, applySignal])

/-- C2.  No negative balances: under the RunConfig constraints
(`initial_capital > 0`, `commission ∈ [0,1)`, `trade_amount > 0`) and the
Candle invariant `close > 0` (enforced by the data-cleaning collaborator
before entry to the core), every recorded row of a run has `cash ≥ 0` and
`position ≥ 0`. -/
theorem run_backtest_no_negative_balances
    (trade_amount commission initial_capital : ℚ) (pairs : List (ℤ × ℚ))
    (hic : 0 < initial_capital) (_hc0 : 0 ≤ commission) (hc1 : commission < 1)
    (hta : 0 < trade_amount) (hprices : ∀ pr ∈ pairs, 0 < pr.2)
    (r : StepRecord)
    (hr : r ∈ runTrace trade_amount commission initial_capital pairs) :
    0 ≤ r.cash ∧ 0 ≤ r.position := by
  rw [runTrace] at hr
  exact runLoop_nonneg trade_amount commission hta hc1 _ pairs hprices
    hic.le le_rfl r hr

/-- C2 witness: the row recorded after a BUY of 0.01 at price 100 has
nonnegative cash and position. -/
theorem run_backtest_no_negative_balances_witness :
    0 ≤ (StepRecord.mk (1/100) (9998999/1000) 1 (9999999/1000) 1).cash ∧
      0 ≤ (StepRecord.mk (1/100) (9998999/1000) 1 (9999999/1000) 1).position :=
  run_backtest_no_negative_balances (1/100) (1/1000) 10000 [(1, 100)]
    (by norm_num) (by norm_num) (by norm_num) (by norm_num)
    (by norm_num) _ (by norm_num [runTrace, runLoop, applySignal, min_def])

/-- C3 counterexample: with `initial_capital = 10000`,
`commission = 0.001`, `trade_amount = 0.01` and the signal/price sequence
BUY at 100, HOLD, SELL at 110, the run's final cash is
`9998.999 + 0.01 * 110 * 0.999 = 10000.0979`, not the `10097.889` the
claim states (the claim's own formula evaluates to `10000.0979`; its
stated total is an arithmetic slip). -/
theorem end_to_end_scenario_counterexample :
    (runFinal (1/100) (1/1000) 10000 [(1, 100), (0, 105), (-1, 110)]).cash ≠
      10097889/1000 := by
  norm_num [runFinal, runLoop, applySignal, min_def]

/-- C3 amended: the scenario run gives, after the BUY, `position = 0.01`
and `cash = 10000 - 0.01 * 100 * 1.001 = 9998.999`; after the SELL,
`position = 0` and `cash = 9998.999 + 0.01 * 110 * 0.999 = 10000.0979`;
and `trade_count = 2`. -/
theorem end_to_end_scenario_exact :
    (runTrace (1/100) (1/1000) 10000 [(1, 100), (0, 105), (-1, 110)]).map
        (fun r => (r.position, r.cash)) =
      [(1/100, 9998999/1000), (1/100, 9998999/1000), (0, 100000979/10000)] ∧
    (runFinal (1/100) (1/1000) 10000
        [(1, 100), (0, 105), (-1, 110)]).tradeCount = 2 := by
  norm_num [runTrace, runFinal, runLoop, applySignal, min_def]

/-- C4.  The ledger transition rules of `backtest_engine.py` lines 97-116:
a BUY with `cash > 0` buys `min(trade_amount, cash / P)` at cost
`buy_qty * P * (1 + commission)` when that cost fits in cash, counting one
trade, and is a silent no-op otherwise; a BUY with `cash = 0` changes
nothing; a SELL with `position > 0` always executes, selling
`min(position, trade_amount)` and crediting
`sell_qty * P * (1 - commission)`. -/
theorem ledger_transition_rules (trade_amount commission : ℚ) (st : Ledger)
    (P : ℚ) :
    (0 < st.cash →
      applySignal trade_amount commission st 1 P =
        if min trade_amount (st.cash / P) * P * (1 + commission) ≤ st.cash
        then Ledger.mk
          (st.cash - min trade_amount (st.cash / P) * P * (1 + commission))
          (st.position + min trade_amount (st.cash / P)) (st.tradeCount + 1)
        else st) ∧
    (st.cash = 0 → applySignal trade_amount commission st 1 P = st) ∧
    (0 < st.position →
      applySignal trade_amount commission st (-1) P =
        Ledger.mk (st.cash + min st.position trade_amount * P * (1 - commission))
          (st.position - min st.position trade_amount) (st.tradeCount + 1)) := by
  refine ⟨fun h => ?_, fun h => ?_, fun h => ?_⟩
  · simp [applySignal, h]
  · simp [applySignal, h]
  · simp [applySignal, h]

/-- C4 witness: a SELL with positive position at a concrete ledger state
executes as the rule states. -/
theorem ledger_transition_rules_witness :
    applySignal 1 0 (Ledger.mk 10 5 0) (-1) 2 =
      Ledger.mk (10 + min 5 1 * 2 * (1 - 0)) (5 - min 5 1) (0 + 1) :=
  (ledger_transition_rules 1 0 (Ledger.mk 10 5 0) 2).2.2 (by norm_num)

/-- C5 counterexample: a run whose single candle carries a SELL signal
with no position held ends with the Ledger's own `trade_count = 0`, while
the Performance Analyzer's count of non-zero signals in the Trace is `1`:
the two counts disagree. -/
theorem trade_count_agreement_counterexample :
    (runFinal (1/100) (1/1000) 10000 [(-1, 100)]).tradeCount = 0 ∧
      tradeCountFromTrace (runTrace (1/100) (1/1000) 10000 [(-1, 100)]) = 1 := by
  constructor
  · norm_num [runFinal, runLoop, applySignal]
  · norm_num [runTrace, runLoop, applySignal, tradeCountFromTrace,
      List.filter_cons]

/-- C5 amended: the Analyzer's signal count only bounds the Ledger's
counter from above — the Ledger increments only on signal-triggered
transitions that actually changed state, so a non-zero signal that is a
no-op (unaffordable BUY, SELL with no position) makes the Analyzer's count
strictly larger.  For every run,
`ledger trade_count ≤ analyzer trade count`. -/
theorem trade_count_upper_bound (trade_amount commission initial_capital : ℚ)
    (pairs : List (ℤ × ℚ)) :
    (runFinal trade_amount commission initial_capital pairs).tradeCount ≤
      tradeCountFromTrace
        (runTrace trade_amount commission initial_capital pairs) := by
  rw [runFinal, runTrace]
  have key : ∀ (l : List (ℤ × ℚ)) (st : Ledger),
      (runLoop trade_amount commission st l).1.tradeCount ≤
        st.tradeCount +
          tradeCountFromTrace (runLoop trade_amount commission st l).2 := by
    intro l
    induction l with
    | nil => intro st; simp [runLoop, tradeCountFromTrace]
    | cons hd tl ih =>
      intro st
      obtain ⟨sig, price⟩ := hd
      simp only [runLoop, tradeCountFromTrace_cons]
      by_cases hs : sig = 0
      · subst hs
        rw [applySignal_of_signal_zero]
        have := ih st
        simpa using this
      · have h1 := ih (applySignal trade_amount commission st sig price)
        have h2 := applySignal_tradeCount_le trade_amount commission st sig price
        rw [if_pos (abs_pos.2 hs)]
        omega
  simpa using key pairs (Ledger.mk initial_capital 0 0)

/-- C10.  Cash-bound BUY starvation: with a positive commission rate, a
positive price, and `cash ≤ trade_amount * P` (the affordable quantity
`cash / P` is the binding minimum), a BUY signal is always a complete
no-op: the cost `cash * (1 + commission)` exceeds `cash`, the `cost ≤ cash`
check fails, and the ledger (cash, position and trade counter) is
unchanged. -/
theorem buy_starvation_noop (trade_amount commission : ℚ) (st : Ledger)
    (P : ℚ) (hcomm : 0 < commission) (hP : 0 < P)
    (hcash : st.cash ≤ trade_amount * P) :
    applySignal trade_amount commission st 1 P = st := by
  by_cases h : 0 < st.cash
  · have hdiv : st.cash / P ≤ trade_amount := (div_le_iff₀ hP).2 (by linarith)
    have hcost :
        ¬ min trade_amount (st.cash / P) * P * (1 + commission) ≤ st.cash := by
      rw [min_eq_right hdiv, div_mul_cancel₀ _ (ne_of_gt hP), not_le]
      nlinarith
    simp [applySignal, h, hcost]
  · simp [applySignal, h]

/-- C10 witness: with cash 100, trade size 1 and price 200, a BUY signal
leaves the ledger untouched. -/
theorem buy_starvation_noop_witness :
    applySignal 1 (1/100) (Ledger.mk 100 0 0) 1 200 = Ledger.mk 100 0 0 :=
  buy_starvation_noop 1 (1/100) (Ledger.mk 100 0 0) 200 (by norm_num)
    (by norm_num) (by norm_num)

/-! ## Claim theorems: driver result shapes -/

/-- C6 counterexample: the degenerate result returned after an uncaught
error (here: a missing `backtest` config section, which raises at
`backtest_engine.py` line 29 and lands in the handler of lines 133-137) is
not "missing the `total_equity` field entirely" — `total` is precisely the
one column it does have. -/
theorem failure_marker_contains_total :
    run_backtest
        (BacktestInput.mk false true (RunConfig.mk 0 10 10000 (1/1000) (1/100))
          [(1, 100)] true true (fun _ => 1)) = errorResult ∧
      "total" ∈ errorResult.columns := by
  constructor
  · simp [run_backtest]
  · simp [errorResult]

/-- C6 amended: an uncaught error makes `run_backtest` abort and return
the degenerate zero-row marker whose column set is exactly `["total"]` —
it is distinguishable from a legitimate empty Trace because it lacks the
other four columns (`position`, `cash`, `holdings`, `signal`), not because
it lacks `total`. -/
theorem failure_marker_shape (inp : BacktestInput)
    (herr : inp.hasBacktestSection = false ∨ inp.hasStrategySection = false ∨
      inp.config.end_date ≤ inp.config.start_date) :
    run_backtest inp = errorResult ∧ errorResult.records = [] ∧
      errorResult.columns = ["total"] ∧ errorResult.columns ≠ traceColumns := by
  refine ⟨?_, rfl, rfl, by simp [errorResult, traceColumns]⟩
  rcases herr with h | h | h <;> simp [run_backtest, h]

/-- C6 witness: the marker shape theorem applied to an input whose config
lacks the `strategy` section. -/
theorem failure_marker_shape_witness :
    run_backtest
        (BacktestInput.mk true false (RunConfig.mk 0 10 10000 (1/1000) (1/100))
          [(1, 100)] true true (fun _ => 1)) = errorResult ∧
      errorResult.records = [] ∧ errorResult.columns = ["total"] ∧
      errorResult.columns ≠ traceColumns :=
  failure_marker_shape _ (Or.inr (Or.inl rfl))

/-- C7.  Empty date range: with valid config sections and
`start_date < end_date`, a date filter that leaves zero candle rows makes
`run_backtest` return the empty Trace with the correct five-column shape
(`position`, `cash`, `holdings`, `total`, `signal`) and zero rows — not an
error. -/
theorem empty_range_result (inp : BacktestInput)
    (hb : inp.hasBacktestSection = true) (hs : inp.hasStrategySection = true)
    (hdate : inp.config.start_date < inp.config.end_date)
    (hempty : inp.candles.filter (fun c =>
      inp.config.start_date ≤ c.1 ∧ c.1 ≤ inp.config.end_date) = []) :
    run_backtest inp = BTResult.mk traceColumns [] ∧
      traceColumns = ["position", "cash", "holdings", "total", "signal"] := by
  refine ⟨?_, rfl⟩
  have h1 : ¬¬(inp.hasBacktestSection ∧ inp.hasStrategySection) := by
    simp [hb, hs]
  rw [run_backtest, if_neg h1, if_neg (not_le.2 hdate), hempty]
  rfl

/-- C7 witness: a start date of 2099 (timestamp 2099) beyond all candle
data yields the legitimate zero-row five-column Trace. -/
theorem empty_range_result_witness :
    run_backtest
        (BacktestInput.mk true true (RunConfig.mk 2099 2199 10000 (1/1000) (1/100))
          [(1, 100), (2, 101)] true true (fun _ => 1)) =
        BTResult.mk traceColumns [] ∧
      traceColumns = ["position", "cash", "holdings", "total", "signal"] :=
  empty_range_result _ rfl rfl (by norm_num) (by decide)

section AnalyzerLemmas

variable {F : Type} [LinearOrderedField F]

theorem pctAux_const (c : F) (hc : c ≠ 0) :
    ∀ (l : List F), (∀ x ∈ l, x = c) →
      pctAux c l = List.replicate l.length (some 0) := by
  intro l
  induction l with
  | nil => intro _; rfl
  | cons y rest ih =>
    intro hall
    have hy : y = c := hall y (List.mem_cons_self _ _)
    subst hy
    have hrest := ih fun x hx => hall x (List.mem_cons_of_mem _ hx)
    simp [pctAux, hc, div_self hc, hrest, List.replicate_succ]

theorem filterMap_id_replicate_some {α : Type} (a : α) (n : ℕ) :
    List.filterMap id (List.replicate n (some a)) = List.replicate n a := by
  induction n with
  | zero => rfl
  | succ n ih => simp [List.replicate_succ, List.filterMap_cons, ih]

theorem calculate_returns_const (c : F) (hc : c ≠ 0) (totals : List F)
    (hne : totals ≠ []) (hall : ∀ x ∈ totals, x = c) :
    calculate_returns totals =
      (none : Option F) :: List.replicate (totals.length - 1) (some 0) := by
  match totals, hne with
  | t0 :: tl, _ =>
    have ht0 : t0 = c := hall t0 (List.mem_cons_self _ _)
    subst ht0
    have := pctAux_const t0 hc tl fun x hx =>
      (hall x (List.mem_cons_of_mem _ hx)).trans
        (hall t0 (List.mem_cons_self _ _)).symm
    simp [calculate_returns, pctChange, this]

theorem seriesStd_const_zero (sqrt : F → F) (hsqrt : sqrt 0 = 0) (n : ℕ)
    (hn : 2 ≤ n) :
    seriesStd sqrt ((none : Option F) :: List.replicate n (some 0)) = some 0 := by
  have hfm : List.filterMap id ((none : Option F) :: List.replicate n (some 0)) =
      List.replicate n (0 : F) := by
    simp [List.filterMap_cons, filterMap_id_replicate_some]
  rw [seriesStd]
  simp only [hfm]
  rw [if_neg (by simp; omega)]
  simp [List.sum_replicate, List.map_replicate, hsqrt]

/-- C8 (amended form; see the counterexample below for why the constant
case needs at least three rows). -/
theorem sharpe_zero_variance_guard (sqrt : F → F) (hsqrt : sqrt 0 = 0) :
    (∀ rf : F, calculate_sharpe_ratio sqrt [] rf = some 0) ∧
    (∀ (returns : List (Option F)) (rf : F),
      seriesStd sqrt (returns.map (Option.map fun r => r - rf / 365)) = some 0 →
        calculate_sharpe_ratio sqrt returns rf = some 0) ∧
    (∀ (totals : List F) (c : F), c ≠ 0 → (∀ x ∈ totals, x = c) →
      3 ≤ totals.length →
        calculate_sharpe_ratio sqrt (calculate_returns totals) 0 = some 0) := by
  refine ⟨fun rf => rfl, fun returns rf h => ?_, fun totals c hc hall hlen => ?_⟩
  · by_cases hemp : returns.isEmpty
    · simp [calculate_sharpe_ratio, hemp]
    · simp [calculate_sharpe_ratio, hemp, h]
  · have hne : totals ≠ [] := by
      intro h0; rw [h0] at hlen; simp at hlen
    have hret := calculate_returns_const c hc totals hne hall
    have hmap :
        (calculate_returns totals).map (Option.map fun r => r - (0 : F) / 365) =
          (none : Option F) :: List.replicate (totals.length - 1) (some 0) := by
      rw [hret]
      simp [List.map_replicate]
    have hstd :
        seriesStd sqrt
          ((calculate_returns totals).map (Option.map fun r => r - (0 : F) / 365)) =
          some 0 := by
      rw [hmap]
      exact seriesStd_const_zero sqrt hsqrt _ (by omega)
    have hstd2 : seriesStd sqrt (calculate_returns totals) = some 0 := by
      rw [hret]
      exact seriesStd_const_zero sqrt hsqrt _ (by omega)
    have hemp : (calculate_returns totals).isEmpty = false := by
      rw [hret]; rfl
    simp [calculate_sharpe_ratio, hemp, hstd, hstd2]

end AnalyzerLemmas

/-- C8 witness: a three-row constant-equity Trace (value 2) has Sharpe
ratio exactly 0 (instantiated at `F = ℚ` with a sqrt function satisfying
`sqrt 0 = 0`). -/
theorem sharpe_zero_variance_guard_witness :
    calculate_sharpe_ratio (fun _ : ℚ => 0) (calculate_returns [2, 2, 2]) 0 =
      some 0 :=
  (sharpe_zero_variance_guard (fun _ : ℚ => 0) rfl).2.2 [2, 2, 2] 2
    (by norm_num) (by simp) (by simp)

/-- C8 counterexample: a Trace with constant positive equity but only two
rows yields Sharpe = NaN (`none`), not 0: the single defined return leaves
`std` with one observation (`ddof = 1`), which is NaN, the `std == 0`
guard does not fire, and NaN propagates through the final division. -/
theorem sharpe_constant_two_rows_nan :
    calculate_sharpe_ratio (fun x : ℚ => x) (calculate_returns [100, 100]) 0 =
        none ∧
      calculate_sharpe_ratio (fun x : ℚ => x) (calculate_returns [100, 100]) 0 ≠
        some 0 := by
  have hnone :
      calculate_sharpe_ratio (fun x : ℚ => x) (calculate_returns [100, 100]) 0 =
        none := by
    norm_num [calculate_sharpe_ratio, calculate_returns, pctChange, pctAux,
      seriesStd, seriesMean, omul, odiv, List.filterMap_cons]
    intro h
    simp at h
  exact ⟨hnone, by rw [hnone]; simp⟩

section DrawdownLemmas

variable {F : Type} [LinearOrderedField F]

theorem pctAux_pos (l : List F) :
    ∀ prev : F, 0 < prev → (∀ x ∈ l, 0 < x) →
      ∀ o ∈ pctAux prev l, ∃ r, o = some r ∧ 0 < 1 + r := by
  induction l with
  | nil => intro prev _ _ o ho; simp [pctAux] at ho
  | cons y rest ih =>
    intro prev hprev hall o ho
    have hy : 0 < y := hall y (List.mem_cons_self _ _)
    simp only [pctAux, List.mem_cons] at ho
    rcases ho with h | h
    · refine ⟨y / prev - 1, ?_, by simpa using div_pos hy hprev⟩
      rw [h, if_neg (ne_of_gt hprev)]
    · exact ih y hy (fun x hx => hall x (List.mem_cons_of_mem _ hx)) o h

theorem drawdown_entries_bounded (l : List (Option F)) :
    ∀ (acc : F) (best : Option F), 0 < acc →
      (∀ o ∈ l, ∃ x, o = some x ∧ 0 < x) →
      (∀ b, best = some b → 0 < b) →
      ∀ o ∈ (List.zipWith odiv (cumprodAux acc l)
          (runningMaxAux best (cumprodAux acc l))).map
            (Option.map fun x => x - 1),
        ∃ v, o = some v ∧ -1 < v ∧ v ≤ 0 := by
  induction l with
  | nil => intro acc best _ _ _ o ho; simp [cumprodAux] at ho
  | cons o0 rest ih =>
    intro acc best hacc hl hbest o ho
    obtain ⟨x, hx, hxpos⟩ := hl o0 (List.mem_cons_self _ _)
    subst hx
    have haxpos : 0 < acc * x := mul_pos hacc hxpos
    have htail : ∀ o ∈ rest, ∃ x, o = some x ∧ 0 < x :=
      fun o ho => hl o (List.mem_cons_of_mem _ ho)
    cases best with
    | none =>
      rw [show cumprodAux acc (some x :: rest) =
        some (acc * x) :: cumprodAux (acc * x) rest from rfl,
        show runningMaxAux (none : Option F)
            (some (acc * x) :: cumprodAux (acc * x) rest) =
          some (acc * x) ::
            runningMaxAux (some (acc * x)) (cumprodAux (acc * x) rest)
          from rfl] at ho
      simp only [List.zipWith_cons_cons, List.map_cons, List.mem_cons] at ho
      rcases ho with h | h
      · refine ⟨acc * x / (acc * x) - 1, ?_, ?_, ?_⟩
        · rw [h]; simp [odiv, ne_of_gt haxpos]
        · simpa using div_pos haxpos haxpos
        · simpa using (div_le_one haxpos).2 le_rfl
      · exact ih (acc * x) (some (acc * x)) haxpos htail
          (fun b hb => by rw [← Option.some_inj.1 hb]; exact haxpos) o h
    | some b0 =>
      rw [show cumprodAux acc (some x :: rest) =
        some (acc * x) :: cumprodAux (acc * x) rest from rfl,
        show runningMaxAux (some b0)
            (some (acc * x) :: cumprodAux (acc * x) rest) =
          some (max b0 (acc * x)) ::
            runningMaxAux (some (max b0 (acc * x)))
              (cumprodAux (acc * x) rest)
          from rfl] at ho
      have hBpos : 0 < max b0 (acc * x) := lt_max_of_lt_right haxpos
      have hBge : acc * x ≤ max b0 (acc * x) := le_max_right _ _
      simp only [List.zipWith_cons_cons, List.map_cons, List.mem_cons] at ho
      rcases ho with h | h
      · refine ⟨acc * x / max b0 (acc * x) - 1, ?_, ?_, ?_⟩
        · rw [h]; simp [odiv, ne_of_gt hBpos]
        · simpa using div_pos haxpos hBpos
        · simpa using (div_le_one hBpos).2 hBge
      · exact ih (acc * x) (some (max b0 (acc * x))) haxpos htail
          (fun b hb => by rw [← Option.some_inj.1 hb]; exact hBpos) o h

theorem seriesMin_bounded (m : List (Option F)) :
    m ≠ [] → (∀ o ∈ m, ∃ v, o = some v ∧ -1 < v ∧ v ≤ 0) →
      ∃ v, seriesMin m = some v ∧ -1 < v ∧ v ≤ 0 := by
  induction m with
  | nil => intro h; exact absurd rfl h
  | cons o0 rest ih =>
    intro _ hall
    obtain ⟨x, hx, hx1, hx0⟩ := hall o0 (List.mem_cons_self _ _)
    subst hx
    have hrest_all : ∀ o ∈ rest, ∃ v, o = some v ∧ -1 < v ∧ v ≤ 0 :=
      fun o ho => hall o (List.mem_cons_of_mem _ ho)
    cases hmin : seriesMin rest with
    | none => exact ⟨x, by simp [seriesMin, hmin], hx1, hx0⟩
    | some y =>
      have hne : rest ≠ [] := by
        intro hnil; rw [hnil] at hmin; simp [seriesMin] at hmin
      obtain ⟨v, hv, hv1, hv0⟩ := ih hne hrest_all
      rw [hmin] at hv
      cases Option.some_inj.1 hv
      exact ⟨min x y, by simp [seriesMin, hmin],
        lt_min hx1 hv1, le_trans (min_le_left _ _) hx0⟩

end DrawdownLemmas

section DrawdownMain

variable {F : Type} [LinearOrderedField F]

theorem cumprodAux_length (l : List (Option F)) :
    ∀ acc : F, (cumprodAux acc l).length = l.length := by
  induction l with
  | nil => intro acc; rfl
  | cons o rest ih => intro acc; cases o <;> simp [cumprodAux, ih]

theorem runningMaxAux_length (l : List (Option F)) :
    ∀ best : Option F, (runningMaxAux best l).length = l.length := by
  induction l with
  | nil => intro best; rfl
  | cons o rest ih => intro best; cases o <;> simp [runningMaxAux, ih]

theorem pctAux_length (l : List F) :
    ∀ prev : F, (pctAux prev l).length = l.length := by
  induction l with
  | nil => intro prev; rfl
  | cons y rest ih => intro prev; simp [pctAux, ih]

/-- C9 (amended form; see the counterexample for the one-row case). -/
theorem max_drawdown_bound (totals : List F)
    (hpos : ∀ x ∈ totals, 0 < x) (hlen : totals.length ≠ 1) :
    ∃ v, calculate_max_drawdown (calculate_returns totals) = some v ∧
      -1 ≤ v ∧ v ≤ 0 := by
  match totals, hpos, hlen with
  | [], _, _ =>
    exact ⟨0, by simp [calculate_returns, calculate_max_drawdown],
      by norm_num, le_rfl⟩
  | [t], _, h => simp at h
  | t0 :: t1 :: tl, hpos, _ =>
    have ht0 : 0 < t0 := hpos t0 (List.mem_cons_self _ _)
    have htl_pos : ∀ x ∈ t1 :: tl, 0 < x :=
      fun x hx => hpos x (List.mem_cons_of_mem _ hx)
    have hret : calculate_returns (t0 :: t1 :: tl) =
        none :: pctAux t0 (t1 :: tl) := by
      simp [calculate_returns, pctChange]
    set l1 : List (Option F) :=
      (pctAux t0 (t1 :: tl)).map (Option.map fun r => 1 + r) with hl1
    have hl1valid : ∀ o ∈ l1, ∃ x, o = some x ∧ 0 < x := by
      intro o ho
      rw [hl1] at ho
      obtain ⟨o', ho', rfl⟩ := List.mem_map.1 ho
      obtain ⟨r, rfl, hr⟩ := pctAux_pos (t1 :: tl) t0 ht0 htl_pos o' ho'
      exact ⟨1 + r, rfl, hr⟩
    set dd1 : List (Option F) :=
      (List.zipWith odiv (cumprodAux 1 l1)
        (runningMaxAux none (cumprodAux 1 l1))).map
          (Option.map fun x => x - 1) with hdd1
    have hmd : calculate_max_drawdown ((none : Option F) ::
        pctAux t0 (t1 :: tl)) = seriesMin dd1 := by
      rw [hdd1, hl1]
      rfl
    have hddvalid : ∀ o ∈ dd1, ∃ v, o = some v ∧ -1 < v ∧ v ≤ 0 := by
      rw [hdd1]
      exact drawdown_entries_bounded l1 1 none one_pos hl1valid
        (fun b hb => by simp at hb)
    have hddne : dd1 ≠ [] := by
      have hlen1 : l1.length = (t1 :: tl).length := by
        rw [hl1]
        simp [pctAux_length]
      have : dd1.length = (t1 :: tl).length := by
        rw [hdd1]
        simp [List.length_zipWith, cumprodAux_length, runningMaxAux_length,
          hlen1]
      intro hnil
      rw [hnil] at this
      simp at this
    obtain ⟨v, hv, hv1, hv0⟩ := seriesMin_bounded dd1 hddne hddvalid
    exact ⟨v, by rw [hret, hmd, hv], le_of_lt hv1, hv0⟩

end DrawdownMain

/-- C9 witness: a two-row all-positive Trace (100 then 50) has a defined
max drawdown lying in `[-1, 0]`. -/
theorem max_drawdown_bound_witness :
    ∃ v : ℚ, calculate_max_drawdown (calculate_returns [100, 50]) = some v ∧
      -1 ≤ v ∧ v ≤ 0 :=
  max_drawdown_bound [100, 50] (by norm_num) (by simp)

/-- C9 counterexample: a single-row Trace with strictly positive equity
yields max drawdown NaN (`none`), not a value in `[-1, 0]`: the lone
return entry is NaN, so the whole drawdown series and its minimum are
NaN. -/
theorem max_drawdown_single_row_nan :
    (0 : ℚ) < 100 ∧
      calculate_max_drawdown (calculate_returns [(100 : ℚ)]) = none := by
  refine ⟨by norm_num, ?_⟩
  rfl
